import Mathlib

/-!
Verification of the streaming word-frequency aggregation core of the
trendingonfedi bot (src/main.go, primary variant).

The Go globals `wordlist : map[string]int` and `postCount int` are modelled
as a state record; the map is an association list whose list order stands
for the (unspecified) map iteration order.  The static `ignoredWords` and
`blockedUsers` slices and the bluemonday sanitize step are parameters.
Library string primitives (`strings.Split`, `strings.ToLower`,
`strings.Trim`, `html.UnescapeString`) are modelled as executable Lean
functions on character lists; `ToLower` is modelled on the ASCII range and
`UnescapeString` on the finite entity table that actually reaches this code
path (the entities a strict HTML sanitizer emits, plus the numeric space
escape used to witness ordering questions).
-/

namespace Trending

/-- A word/count pair, from `type Word struct { Text string; Count int }`. -/
structure Word where
  Text : String
  Count : Nat
  deriving DecidableEq, Repr

/-- The mutable globals of main.go: `wordlist` (the Aggregation Store,
modelled as an association list in iteration order) and `postCount`
(the WindowStats posts-received counter). -/
structure St where
  wordlist : List (String × Nat)
  postCount : Nat
  deriving DecidableEq, Repr

/-- `status.Account`: the fields the core reads (`Bot`, `Acct`). -/
structure Account where
  Bot : Bool
  Acct : String
  deriving DecidableEq, Repr

/-- `mastodon.Status`: the fields the core reads. -/
structure Status where
  Account : Account
  Content : String
  deriving DecidableEq, Repr

/-- `wordlist[word]++`: create with count 1 if absent, else add one. -/
def incrWord (w : String) : List (String × Nat) → List (String × Nat)
  | [] => [(w, 1)]
  | (k, v) :: rest => if k = w then (k, v + 1) :: rest else (k, v) :: incrWord w rest

/-- Reading `wordlist[w]` (a Go map read returns the zero value 0 when
the key is absent). -/
def lookupCount (w : String) : List (String × Nat) → Nat
  | [] => 0
  | (k, v) :: rest => if k = w then v else lookupCount w rest

/-- `delete(wordlist, k)`: remove the entry for `k`. -/
def eraseKey (w : String) : List (String × Nat) → List (String × Nat)
  | [] => []
  | (k, v) :: rest => if k = w then rest else (k, v) :: eraseKey w rest

/-- The constant `trimchars = "()[]{}!.,;?'`'\""` (a set of characters;
the apostrophe is listed twice in the Go literal). -/
def trimchars : List Char :=
  ['(', ')', '[', ']', Char.ofNat 123, Char.ofNat 125, '!', '.', ',', ';', '?',
   Char.ofNat 39, Char.ofNat 96, Char.ofNat 34]

/-- Membership in the trim cutset. -/
def isTrimChar (c : Char) : Bool := trimchars.contains c

/-- `strings.Trim(word, trimchars)`: drop characters of the cutset from
both ends. -/
def trimWord (s : String) : String :=
  ⟨((s.toList.dropWhile isTrimChar).reverse.dropWhile isTrimChar).reverse⟩

/-- ASCII case folding of one character, modelling `strings.ToLower`
on the inputs exercised here. -/
def lowerChar (c : Char) : Char :=
  if 'A' ≤ c ∧ c ≤ 'Z' then Char.ofNat (c.toNat + 32) else c

/-- `strings.ToLower`. -/
def toLowerStr (s : String) : String := ⟨s.toList.map lowerChar⟩

/-- `strings.Split(s, " ")` on character lists: split around every single
space; the empty input yields one empty field. -/
def splitSpace : List Char → List (List Char)
  | [] => [[]]
  | c :: cs =>
    if c = ' ' then [] :: splitSpace cs
    else
      match splitSpace cs with
      | [] => [[c]]
      | t :: ts => (c :: t) :: ts

/-- `strings.Split(s, " ")`. -/
def splitWords (s : String) : List String := (splitSpace s.toList).map String.mk

/-- `html.UnescapeString`, modelled on the finite entity table reaching
this code (the five escapes a strict sanitizer emits — amp, lt, gt,
numeric quote and apostrophe — plus the numeric space escape). -/
def unescapeList : List Char → List Char
  | '&' :: 'a' :: 'm' :: 'p' :: ';' :: rest => '&' :: unescapeList rest
  | '&' :: 'l' :: 't' :: ';' :: rest => '<' :: unescapeList rest
  | '&' :: 'g' :: 't' :: ';' :: rest => '>' :: unescapeList rest
  | '&' :: '#' :: '3' :: '2' :: ';' :: rest => ' ' :: unescapeList rest
  | '&' :: '#' :: '3' :: '4' :: ';' :: rest => Char.ofNat 34 :: unescapeList rest
  | '&' :: '#' :: '3' :: '9' :: ';' :: rest => Char.ofNat 39 :: unescapeList rest
  | c :: rest => c :: unescapeList rest
  | [] => []

/-- `html.UnescapeString` on strings. -/
def unescapeString (s : String) : String := ⟨unescapeList s.toList⟩

/-- The per-token normalization the word loop applies: unescape HTML
entities, then trim the cutset from the edges. -/
def normTok (t : String) : String := trimWord (unescapeString t)

/-- Descending-count order on `Word` (`wordSlice[i].Count > wordSlice[j].Count`
as a non-strict sort order). -/
def wordLE (a b : Word) : Prop := b.Count ≤ a.Count

instance : DecidableRel wordLE := fun a b => inferInstanceAs (Decidable (b.Count ≤ a.Count))

instance : IsTotal Word wordLE := ⟨fun a b => Nat.le_total b.Count a.Count⟩

instance : IsTrans Word wordLE := ⟨fun _ _ _ h1 h2 => Nat.le_trans h2 h1⟩

/-- `sortedList`: the range-and-delete loop copies every map entry into the
slice and deletes every key (so the store ends empty); the slice is then
sorted by count descending with `sort.Slice`.  (The Go function receives the
map as a parameter but reads the global `wordlist`; every call site passes
that same global, so one store argument is faithful.) -/
def sortedList (wordlist : List (String × Nat)) : List Word × List (String × Nat) :=
  (List.insertionSort wordLE (wordlist.map fun p => Word.mk p.1 p.2), [])

/-- Result of the word loop inside `handleWord`: the updated store, the
`addedWords` slice, and the `ignorecount` / `dupecount` tallies. -/
structure LoopOut where
  wl : List (String × Nat)
  added : List String
  ign : Nat
  dup : Nat
  deriving DecidableEq, Repr

/-- The `WordLoop` of `handleWord`: per token, unescape then trim, skip it
if ignored (counting it), skip it if already added (counting it), and
increment the store only for a non-empty first occurrence. -/
def wordLoop (ig : List String) :
    List String → List (String × Nat) → List String → Nat → Nat → LoopOut
  | [], wl, added, ign, dup => ⟨wl, added, ign, dup⟩
  | tok :: rest, wl, added, ign, dup =>
    let word := normTok tok
    if word ∈ ig then wordLoop ig rest wl added (ign + 1) dup
    else if word ∈ added then wordLoop ig rest wl added ign (dup + 1)
    else if word.length > 0 then
      wordLoop ig rest (incrWord word wl) (added ++ [word]) ign dup
    else wordLoop ig rest wl added ign dup

/-- Result of `handleWord`: the updated globals plus the per-post
observability tallies that the log line reports. -/
structure HWOut where
  st : St
  ignorecount : Nat
  dupecount : Nat
  deriving DecidableEq, Repr

/-- `handleWord`: reject bot authors, reject blocked authors, then count
the post, strip markup (`sanitize` stands for the bluemonday strict
policy), lower-case, split on spaces, and run the word loop. -/
def handleWord (sanitize : String → String) (ig bl : List String)
    (status : Status) (st : St) : HWOut :=
  if status.Account.Bot then ⟨st, 0, 0⟩
  else if status.Account.Acct ∈ bl then ⟨st, 0, 0⟩
  else
    let stripped := sanitize status.Content
    let lowered := toLowerStr stripped
    let words := splitWords lowered
    let r := wordLoop ig words st.wordlist [] 0 0
    ⟨⟨r.wl, st.postCount + 1⟩, r.ign, r.dup⟩

/-- The configuration fields `aggregateposts` reads. -/
structure AggConfig where
  WordsToPost : Int
  EnablePosts : Bool
  deriving DecidableEq, Repr

/-- The report `aggregateposts` builds: the ranked entries that make it
into the text, and whether the text is handed to the emitter. -/
structure Report where
  entries : List Word
  emitted : Bool
  deriving DecidableEq, Repr

/-- The ranked-entry selection loop of `aggregateposts`
(`i := config.WordsToPost; for ... { i--; if i < 0 { break }; ... }`). -/
def reportEntries : Int → List Word → List Word
  | _, [] => []
  | i, w :: ws => if i - 1 < 0 then [] else w :: reportEntries (i - 1) ws

/-- `aggregateposts`: reset `postCount`, drain and rank the store, select
the top `WordsToPost` entries, and emit the text iff `EnablePosts`. -/
def aggregateposts (cfg : AggConfig) (st : St) : St × Report :=
  let drained := sortedList st.wordlist
  (⟨drained.2, 0⟩, ⟨reportEntries cfg.WordsToPost drained.1, cfg.EnablePosts⟩)

/-- The token extraction the code performs, factored in its actual order:
lower-case the stripped text, split on single spaces, then per token
unescape entities and trim. -/
def codeNormalize (stripped : String) : List String :=
  (splitWords (toLowerStr stripped)).map normTok

/-- Modelled from the spec's words (§4.1 step order as claimed): unescape
entities on the whole stripped text, then lower-case, then split, then
trim each token.  Used only for comparison with `codeNormalize`. -/
def specOrderNormalize (stripped : String) : List String :=
  (splitWords (toLowerStr (unescapeString stripped))).map trimWord

/-- Filtering over already-normalized words: the word loop with the
per-token normalization factored out. -/
def addWords (ig : List String) :
    List String → List (String × Nat) → List String → List (String × Nat)
  | [], wl, _ => wl
  | w :: ws, wl, seen =>
    if w ∈ ig then addWords ig ws wl seen
    else if w ∈ seen then addWords ig ws wl seen
    else if w.length > 0 then addWords ig ws (incrWord w wl) (seen ++ [w])
    else addWords ig ws wl seen

/-! ### Helper lemmas -/

theorem lookupCount_incr_self (w : String) :
    ∀ l, lookupCount w (incrWord w l) = lookupCount w l + 1 := by
  intro l
  induction l with
  | nil => simp [incrWord, lookupCount]
  | cons p rest ih =>
    obtain ⟨k, v⟩ := p
    by_cases hk : k = w
    · simp [incrWord, lookupCount, hk]
    · simp [incrWord, lookupCount, hk, ih]

theorem lookupCount_incr_other {w u : String} (h : w ≠ u) :
    ∀ l, lookupCount w (incrWord u l) = lookupCount w l := by
  have h' : ¬u = w := fun hh => h hh.symm
  intro l
  induction l with
  | nil => simp [incrWord, lookupCount, h']
  | cons p rest ih =>
    obtain ⟨k, v⟩ := p
    by_cases hk : k = u
    · subst hk
      simp [incrWord, lookupCount, h']
    · simp [incrWord, lookupCount, hk, ih]

theorem wordLoop_wl_eq_addWords (ig : List String) :
    ∀ (toks : List String) (wl : List (String × Nat)) (added : List String)
      (ign dup : Nat),
      (wordLoop ig toks wl added ign dup).wl = addWords ig (toks.map normTok) wl added := by
  intro toks
  induction toks with
  | nil => intro wl added ign dup; simp [wordLoop, addWords]
  | cons tok rest ih =>
    intro wl added ign dup
    by_cases h1 : normTok tok ∈ ig
    · simp [wordLoop, addWords, h1, ih]
    · by_cases h2 : normTok tok ∈ added
      · simp [wordLoop, addWords, h1, h2, ih]
      · by_cases h3 : (normTok tok).length > 0
        · simp [wordLoop, addWords, h1, h2, h3, ih]
        · simp [wordLoop, addWords, h1, h2, h3, ih]

theorem string_length_pos {w : String} (h : w ≠ "") : w.length > 0 := by
  obtain ⟨d⟩ := w
  cases d with
  | nil => exact absurd rfl h
  | cons c cs => simp [String.length]

theorem addWords_lookup {ig : List String} {w : String}
    (hig : w ∉ ig) (hne : w ≠ "") :
    ∀ (ws : List String) (wl : List (String × Nat)) (seen : List String),
      lookupCount w (addWords ig ws wl seen) =
        lookupCount w wl + (if w ∈ seen then 0 else if w ∈ ws then 1 else 0) := by
  intro ws
  induction ws with
  | nil => intro wl seen; by_cases h : w ∈ seen <;> simp [addWords, h]
  | cons u rest ih =>
    intro wl seen
    by_cases h1 : u ∈ ig
    · have huw : w ≠ u := fun hh => hig (hh ▸ h1)
      rw [addWords, if_pos h1, ih]
      by_cases hs : w ∈ seen
      · simp [hs]
      · simp [hs, List.mem_cons, fun hh : w = u => huw hh]
    · by_cases h2 : u ∈ seen
      · rw [addWords, if_neg h1, if_pos h2, ih]
        by_cases hs : w ∈ seen
        · simp [hs]
        · by_cases huw : w = u
          · exact absurd (huw ▸ h2) hs
          · simp [hs, List.mem_cons, huw]
      · by_cases h3 : u.length > 0
        · rw [addWords, if_neg h1, if_neg h2, if_pos h3, ih]
          by_cases huw : w = u
          · subst huw
            simp [h2, lookupCount_incr_self]
          · rw [lookupCount_incr_other huw]
            by_cases hs : w ∈ seen
            · simp [hs, List.mem_append, huw]
            · simp [hs, List.mem_append, huw, List.mem_cons]
        · have hu : u = "" := by
            by_contra hne2
            exact h3 (string_length_pos hne2)
          have huw : w ≠ u := fun hh => hne (hh.trans hu)
          rw [addWords, if_neg h1, if_neg h2, if_neg h3, ih]
          by_cases hs : w ∈ seen
          · simp [hs]
          · simp [hs, List.mem_cons, huw]

theorem addWords_lookup_ignored {ig : List String} {w : String} (hw : w ∈ ig) :
    ∀ (ws : List String) (wl : List (String × Nat)) (seen : List String),
      lookupCount w (addWords ig ws wl seen) = lookupCount w wl := by
  intro ws
  induction ws with
  | nil => intro wl seen; simp [addWords]
  | cons u rest ih =>
    intro wl seen
    by_cases h1 : u ∈ ig
    · simp [addWords, h1, ih]
    · by_cases h2 : u ∈ seen
      · simp [addWords, h1, h2, ih]
      · by_cases h3 : u.length > 0
        · have huw : w ≠ u := fun hh => h1 (hh ▸ hw)
          simp [addWords, h1, h2, h3, ih, lookupCount_incr_other huw]
        · simp [addWords, h1, h2, h3, ih]

theorem wordLoop_ign (ig : List String) :
    ∀ (toks : List String) (wl : List (String × Nat)) (added : List String)
      (ign dup : Nat),
      (wordLoop ig toks wl added ign dup).ign =
        ign + toks.countP (fun t => decide (normTok t ∈ ig)) := by
  intro toks
  induction toks with
  | nil => intro wl added ign dup; simp [wordLoop]
  | cons tok rest ih =>
    intro wl added ign dup
    by_cases h1 : normTok tok ∈ ig
    · rw [wordLoop]
      simp only [h1, if_pos]
      rw [ih, List.countP_cons]
      simp [h1, Nat.add_assoc, Nat.add_comm 1]
    · by_cases h2 : normTok tok ∈ added
      · rw [wordLoop]
        simp only [h1, h2, if_neg, if_pos, ite_true, ite_false]
        rw [ih, List.countP_cons]
        simp [h1]
      · by_cases h3 : (normTok tok).length > 0
        · rw [wordLoop]
          simp only [h1, h2, h3, ite_true, ite_false]
          rw [ih, List.countP_cons]
          simp [h1]
        · rw [wordLoop]
          simp only [h1, h2, h3, ite_true, ite_false]
          rw [ih, List.countP_cons]
          simp [h1]

theorem countP_le_of_imp {α : Type} (p q : α → Bool)
    (h : ∀ x, p x = true → q x = true) :
    ∀ l : List α, l.countP p ≤ l.countP q := by
  intro l
  induction l with
  | nil => simp
  | cons a rest ih =>
    rw [List.countP_cons, List.countP_cons]
    by_cases hp : p a = true
    · simp [hp, h a hp]
      omega
    · simp [hp]
      by_cases hq : q a = true <;> simp [hq] <;> omega

theorem reportEntries_nil_of_nonpos {k : Int} (h : k ≤ 0) (l : List Word) :
    reportEntries k l = [] := by
  cases l with
  | nil => rfl
  | cons w ws =>
    rw [reportEntries, if_pos]
    omega

theorem reportEntries_all : ∀ (l : List Word) (k : Int),
    (l.length : Int) ≤ k → reportEntries k l = l := by
  intro l
  induction l with
  | nil => intro k _; rfl
  | cons w ws ih =>
    intro k hk
    simp only [List.length_cons] at hk
    rw [reportEntries, if_neg (by push_cast at hk ⊢; omega), ih (k - 1) (by push_cast at hk ⊢; omega)]

theorem sortedList_fst_perm (s : List (String × Nat)) :
    (sortedList s).1.Perm (s.map fun p => Word.mk p.1 p.2) :=
  List.perm_insertionSort wordLE _

theorem sortedList_fst_sorted (s : List (String × Nat)) :
    List.Sorted wordLE (sortedList s).1 :=
  List.sorted_insertionSort wordLE _

theorem sortedList_snd (s : List (String × Nat)) : (sortedList s).2 = [] := rfl

/-! ### Claim theorems -/

/-- C1: for every state of the Aggregation Store, `sortedList` returns a
sequence containing each (word, count) entry of the store exactly once
(a permutation of the entries), sorted by count descending (`wordLE`),
and leaves the store empty afterwards. -/
theorem sortedList_drain_spec (s : List (String × Nat)) :
    (sortedList s).1.Perm (s.map fun p => Word.mk p.1 p.2) ∧
    List.Sorted wordLE (sortedList s).1 ∧
    (sortedList s).2 = [] :=
  ⟨sortedList_fst_perm s, sortedList_fst_sorted s, sortedList_snd s⟩

/-- C2 counterexample: a post by a non-bot, non-blocked author containing
the normalized word "cat" twice, with "cat" in the ignore list, leaves the
count at 0 rather than increasing it by exactly 1 as the claim states. -/
theorem handleWord_ignored_word_not_incremented :
    lookupCount "cat"
        (handleWord id ["cat"] [] ⟨⟨false, "u"⟩, "cat cat"⟩ ⟨[], 0⟩).st.wordlist
      ≠ lookupCount "cat" [] + 1 := by decide

/-- C2 (amended): for a post by a non-bot, non-blocked author containing a
normalized word `w` at least once, where `w` is non-empty and not in the
ignore list, `handleWord` increases the store's count for `w` by exactly 1,
never more (the per-post dedup collapses repeats). -/
theorem handleWord_dedup_increment (sanitize : String → String)
    (ig bl : List String) (status : Status) (st : St) (w : String)
    (hb : status.Account.Bot = false) (hbl : status.Account.Acct ∉ bl)
    (hig : w ∉ ig) (hne : w ≠ "")
    (hocc : w ∈ (splitWords (toLowerStr (sanitize status.Content))).map normTok) :
    lookupCount w (handleWord sanitize ig bl status st).st.wordlist
      = lookupCount w st.wordlist + 1 := by
  simp only [handleWord, hb, Bool.false_eq_true, if_false, if_neg hbl]
  rw [wordLoop_wl_eq_addWords, addWords_lookup hig hne]
  simp [hocc]

/-- C2 witness: a post containing "hello" twice increments its count by
exactly 1. -/
theorem handleWord_dedup_increment_witness :
    lookupCount "hello"
        (handleWord id [] [] ⟨⟨false, "u"⟩, "hello hello"⟩ ⟨[], 0⟩).st.wordlist
      = lookupCount "hello" [] + 1 :=
  handleWord_dedup_increment id [] [] ⟨⟨false, "u"⟩, "hello hello"⟩ ⟨[], 0⟩
    "hello" rfl (by decide) (by decide) (by decide) (by decide)

/-- C3 (code bug): the drain is not atomic.  At the granularity of the
source's own store operations — the loop body of `sortedList` copies an
entry (`wordSlice[i] = Word{k, v}`) and then deletes its key
(`delete(wordlist, k)`), while `handleWord` increments concurrently
(`wordlist[word]++`) — the interleaving "copy the cat entry; concurrent
increment of cat; delete cat" makes one of the two applied increments
visible to neither this window's snapshot nor the next: the copied count
plus everything left for the next drain is 1, not 2. -/
theorem drain_loses_concurrent_increment :
    (let s0 := incrWord "cat" []
     let copied := Word.mk "cat" (lookupCount "cat" s0)
     let s1 := incrWord "cat" s0
     let s2 := eraseKey "cat" s1
     copied.Count + lookupCount "cat" s2 = 1 ∧ (sortedList s2).1 = []) := by decide

/-- C4 counterexample: on the stripped text "A&#32;B" the code's pipeline
(lower-case, split, then per-token unescape and trim) yields the single
token "a b", while the claimed order (unescape, then lower-case, then
split, then trim) yields the two tokens "a", "b"; `handleWord` stores the
single key "a b". -/
theorem normalize_order_counterexample :
    codeNormalize "A&#32;B" ≠ specOrderNormalize "A&#32;B" ∧
    codeNormalize "A&#32;B" = ["a b"] ∧
    specOrderNormalize "A&#32;B" = ["a", "b"] ∧
    (handleWord id [] [] ⟨⟨false, "u"⟩, "A&#32;B"⟩ ⟨[], 0⟩).st.wordlist
      = [("a b", 1)] := by decide

/-- C4 (amended): the code's normalization order is: strip markup, then
lower-case the entire text, then split on single-space boundaries, then
per token decode character-entity escapes and trim the trim-set — i.e.
entity decoding happens after lower-casing and after splitting
(`codeNormalize`); the ignore/dedup/discard-empty filtering then consumes
exactly these normalized tokens. -/
theorem handleWord_normalize_order (sanitize : String → String)
    (ig bl : List String) (status : Status) (st : St)
    (hb : status.Account.Bot = false) (hbl : status.Account.Acct ∉ bl) :
    (handleWord sanitize ig bl status st).st.wordlist =
      addWords ig (codeNormalize (sanitize status.Content)) st.wordlist [] := by
  simp only [handleWord, hb, Bool.false_eq_true, if_false, if_neg hbl]
  rw [wordLoop_wl_eq_addWords]
  rfl

/-- C4 witness: the amended order at a concrete post. -/
theorem handleWord_normalize_order_witness :
    (handleWord id [] [] ⟨⟨false, "u"⟩, "Dog dog!"⟩ ⟨[], 0⟩).st.wordlist =
      addWords [] (codeNormalize "Dog dog!") [] [] :=
  handleWord_normalize_order id [] [] ⟨⟨false, "u"⟩, "Dog dog!"⟩ ⟨[], 0⟩
    rfl (by decide)

/-- C5: a post whose author is bot-flagged or in the block list leaves the
Aggregation Store and the postCount counter completely unchanged. -/
theorem handleWord_rejected_no_effect (sanitize : String → String)
    (ig bl : List String) (status : Status) (st : St)
    (h : status.Account.Bot = true ∨ status.Account.Acct ∈ bl) :
    (handleWord sanitize ig bl status st).st = st := by
  rcases h with h | h
  · simp [handleWord, h]
  · by_cases hb : status.Account.Bot <;> simp [handleWord, hb, h]

/-- C5 witness: a bot post and a blocked-author post both leave the state
untouched. -/
theorem handleWord_rejected_no_effect_witness :
    (handleWord id [] ["spammer"] ⟨⟨true, "u"⟩, "hello"⟩ ⟨[("x", 1)], 3⟩).st
        = ⟨[("x", 1)], 3⟩ ∧
    (handleWord id [] ["spammer"] ⟨⟨false, "spammer"⟩, "hello"⟩ ⟨[("x", 1)], 3⟩).st
        = ⟨[("x", 1)], 3⟩ :=
  ⟨handleWord_rejected_no_effect id [] ["spammer"] ⟨⟨true, "u"⟩, "hello"⟩
      ⟨[("x", 1)], 3⟩ (Or.inl rfl),
   handleWord_rejected_no_effect id [] ["spammer"] ⟨⟨false, "spammer"⟩, "hello"⟩
      ⟨[("x", 1)], 3⟩ (Or.inr (by decide))⟩

/-- C6: for a word `w` in the ignore list, processing a post (by a
non-bot, non-blocked author) never creates or increments the store entry
for `w`; the post's `ignorecount` tally equals the number of tokens whose
normalized form is ignored, so every occurrence of `w` is counted in it. -/
theorem handleWord_ignore_set (sanitize : String → String)
    (ig bl : List String) (status : Status) (st : St) (w : String)
    (hb : status.Account.Bot = false) (hbl : status.Account.Acct ∉ bl)
    (hw : w ∈ ig) :
    lookupCount w (handleWord sanitize ig bl status st).st.wordlist
        = lookupCount w st.wordlist ∧
    (handleWord sanitize ig bl status st).ignorecount
        = (splitWords (toLowerStr (sanitize status.Content))).countP
            (fun t => decide (normTok t ∈ ig)) ∧
    (splitWords (toLowerStr (sanitize status.Content))).countP
        (fun t => decide (normTok t = w))
      ≤ (handleWord sanitize ig bl status st).ignorecount := by
  have hign : (handleWord sanitize ig bl status st).ignorecount
      = (splitWords (toLowerStr (sanitize status.Content))).countP
          (fun t => decide (normTok t ∈ ig)) := by
    simp only [handleWord, hb, Bool.false_eq_true, if_false, if_neg hbl]
    rw [wordLoop_ign]
    simp
  refine ⟨?_, hign, ?_⟩
  · simp only [handleWord, hb, Bool.false_eq_true, if_false, if_neg hbl]
    rw [wordLoop_wl_eq_addWords, addWords_lookup_ignored hw]
  · rw [hign]
    apply countP_le_of_imp
    intro t ht
    have : normTok t = w := of_decide_eq_true ht
    exact decide_eq_true (this ▸ hw)

/-- C6 witness: with "the" ignored, the post "the cat the" leaves the
count of "the" unchanged and tallies both occurrences as ignored. -/
theorem handleWord_ignore_set_witness :
    ("the" ∈ (["the"] : List String)) ∧
    (lookupCount "the"
        (handleWord id ["the"] [] ⟨⟨false, "u"⟩, "the cat the"⟩ ⟨[], 0⟩).st.wordlist
      = lookupCount "the" [] ∧
    (handleWord id ["the"] [] ⟨⟨false, "u"⟩, "the cat the"⟩ ⟨[], 0⟩).ignorecount
      = (splitWords (toLowerStr (id "the cat the"))).countP
          (fun t => decide (normTok t ∈ ["the"])) ∧
    (splitWords (toLowerStr (id "the cat the"))).countP
        (fun t => decide (normTok t = "the"))
      ≤ (handleWord id ["the"] [] ⟨⟨false, "u"⟩, "the cat the"⟩ ⟨[], 0⟩).ignorecount) :=
  ⟨by decide,
   handleWord_ignore_set id ["the"] [] ⟨⟨false, "u"⟩, "the cat the"⟩ ⟨[], 0⟩
     "the" rfl (by decide) (by decide)⟩

/-- C7 counterexample: two stores holding the same word-to-count mapping
(the entry lists are permutations of each other) but with different
iteration orders produce different ranked sequences when counts tie, so
the output is not deterministic with a fixed tie-break. -/
theorem sortedList_tie_depends_on_iteration_order :
    ([("a", 1), ("b", 1)] : List (String × Nat)).Perm [("b", 1), ("a", 1)] ∧
    (sortedList [("a", 1), ("b", 1)]).1 ≠ (sortedList [("b", 1), ("a", 1)]).1 :=
  ⟨List.Perm.swap _ _ _, by decide⟩

/-- C7 (amended): two drains on stores holding the same word-to-count
mapping return sequences that are permutations of each other and each
sorted by count descending, but equal-count entries follow incidental
iteration order, not a fixed documented tie-break. -/
theorem sortedList_count_descending_only (s t : List (String × Nat))
    (h : s.Perm t) :
    (sortedList s).1.Perm (sortedList t).1 ∧
    List.Sorted wordLE (sortedList s).1 ∧
    List.Sorted wordLE (sortedList t).1 := by
  refine ⟨?_, sortedList_fst_sorted s, sortedList_fst_sorted t⟩
  exact (sortedList_fst_perm s).trans
    ((h.map _).trans (sortedList_fst_perm t).symm)

/-- C7 witness: the amended statement at the two concrete stores. -/
theorem sortedList_count_descending_only_witness :
    ([("a", 1), ("b", 1)] : List (String × Nat)).Perm [("b", 1), ("a", 1)] ∧
    ((sortedList [("a", 1), ("b", 1)]).1.Perm (sortedList [("b", 1), ("a", 1)]).1 ∧
     List.Sorted wordLE (sortedList [("a", 1), ("b", 1)]).1 ∧
     List.Sorted wordLE (sortedList [("b", 1), ("a", 1)]).1) :=
  ⟨List.Perm.swap _ _ _,
   sortedList_count_descending_only _ _ (List.Perm.swap _ _ _)⟩

/-- C8: if `WordsToPost ≤ 0` the report carries zero ranked entries but
is still produced (emission is decided solely by `EnablePosts`); if
`WordsToPost` is at least the number of distinct words, the report
carries exactly the whole ranked list, with no padding. -/
theorem aggregateposts_topk_boundary (cfg : AggConfig) (st : St) :
    (cfg.WordsToPost ≤ 0 →
      (aggregateposts cfg st).2.entries = [] ∧
      (aggregateposts cfg st).2.emitted = cfg.EnablePosts) ∧
    ((st.wordlist.length : Int) ≤ cfg.WordsToPost →
      (aggregateposts cfg st).2.entries = (sortedList st.wordlist).1) := by
  constructor
  · intro hk
    exact ⟨reportEntries_nil_of_nonpos hk _, rfl⟩
  · intro hk
    show reportEntries cfg.WordsToPost (sortedList st.wordlist).1
        = (sortedList st.wordlist).1
    apply reportEntries_all
    have hlen : (sortedList st.wordlist).1.length = st.wordlist.length := by
      rw [(sortedList_fst_perm st.wordlist).length_eq, List.length_map]
    rw [hlen]
    exact hk

/-- C8 witness: K = 0 on a one-word store gives an emitted empty report;
K = 5 on the same store gives the full ranked list. -/
theorem aggregateposts_topk_boundary_witness :
    ((aggregateposts ⟨0, true⟩ ⟨[("a", 2)], 5⟩).2.entries = [] ∧
      (aggregateposts ⟨0, true⟩ ⟨[("a", 2)], 5⟩).2.emitted = true) ∧
    (aggregateposts ⟨5, false⟩ ⟨[("a", 2)], 5⟩).2.entries
      = (sortedList [("a", 2)]).1 :=
  ⟨(aggregateposts_topk_boundary ⟨0, true⟩ ⟨[("a", 2)], 5⟩).1 (by decide),
   (aggregateposts_topk_boundary ⟨5, false⟩ ⟨[("a", 2)], 5⟩).2 (by decide)⟩

/-- C10: every post passing the bot and blocked-author checks increments
the posts-received counter by exactly 1, whatever its text (including
posts yielding zero countable words). -/
theorem handleWord_postCount_increment (sanitize : String → String)
    (ig bl : List String) (status : Status) (st : St)
    (hb : status.Account.Bot = false) (hbl : status.Account.Acct ∉ bl) :
    (handleWord sanitize ig bl status st).st.postCount = st.postCount + 1 := by
  simp [handleWord, hb, hbl]

/-- C10 witness: an accepted post with empty text (zero countable words)
still bumps the counter from 0 to 1. -/
theorem handleWord_postCount_increment_witness :
    (handleWord id [] [] ⟨⟨false, "u"⟩, ""⟩ ⟨[], 0⟩).st.postCount = 0 + 1 :=
  handleWord_postCount_increment id [] [] ⟨⟨false, "u"⟩, ""⟩ ⟨[], 0⟩
    rfl (by decide)

end Trending
